import Mathlib

/-
Verification of the path-sensitive fact-tracking structure of
src/compiler/control-path-state.h: a ControlPathState is a stack of blocks
(each block a list of NodeStates accumulated in one straight-line region of
control flow) together with a side index keyed by (node, depth), plus the
AdvancedReducerWithControlPathState mixin that drives fact propagation.

The supporting primitives are not part of the analysed sources, so they are
modelled from the specification of their interfaces:
  - FunctionalList (persistent list): prepend, drop-front, front-peek,
    value equality; prepend takes an optional hint list for structural
    sharing.  A block stack and a block are both FunctionalLists, embedded
    here as Lean lists with the front at the head.
  - PersistentMap: a total map from keys to values where absent keys read
    as the default value and storing the default value erases the entry;
    embedded as a total function.
  - NodeAuxData: per-node side table whose Set reports whether the stored
    value changed.
Nodes are identified by natural numbers; a NodeState holds its owning node
and an optional fact payload, IsSet telling a real fact from the default
"no fact" value, exactly the capability contract the C++ template asserts.
-/

namespace ControlPath

abbrev Node := Nat

/-- A NodeState: the generic fact type of the C++ template, instantiated with
an owning node and an optional payload.  The default-constructed value
(node 0, no payload) is the "no fact" value. -/
structure NodeState where
  node : Node
  fact : Option Nat
  deriving DecidableEq

instance : Inhabited NodeState := ⟨⟨0, none⟩⟩

/-- The IsSet capability required of the fact type: whether this is a real
fact rather than the default "no fact" value. -/
def NodeState.IsSet (s : NodeState) : Bool := s.fact.isSome

abbrev NodeWithPathDepth := Node × Nat

/-- Modelled from the spec: the persistent associative map primitive
(persistent-map.h is not among the analysed sources).  Get of an absent key
yields the default value and setting the default value removes the entry, so
the map is semantically a total function from keys to NodeStates. -/
def PMap := NodeWithPathDepth → NodeState

def PMap.empty : PMap := fun _ => default

def PMap.Get (m : PMap) (k : NodeWithPathDepth) : NodeState := m k

def PMap.Set (m : PMap) (k : NodeWithPathDepth) (v : NodeState) : PMap :=
  fun q => if q = k then v else m q

namespace FunctionalList

/-- Modelled from the spec: front-peek of the persistent list primitive
(functional-list.h is not among the analysed sources).  On an empty list the
front is the default value; for the block stack this makes Extend on an
empty stack behave as StartRegion, as both the spec and the header comment
state. -/
def Front [Inhabited α] (l : List α) : α := l.headD default

/-- Modelled from the spec: drop-front of the persistent list primitive;
a no-op on the empty list. -/
def DropFront (l : List α) : List α := l.tail

/-- Modelled from the spec: prepend of the persistent list primitive. -/
def PushFront (l : List α) (a : α) : List α := a :: l

/-- Modelled from the spec: prepend with a sharing hint.  If the hint is
exactly the list that prepending would build (same length, same front, same
rest) the result is the hint itself; otherwise a plain prepend.  Value-wise
this is always a plain prepend, which lemma PushFrontHint_eq_cons records. -/
def PushFrontHint [Inhabited α] [DecidableEq α] (l : List α) (a : α)
    (hint : List α) : List α :=
  if hint.length = l.length + 1 ∧ Front hint = a ∧ DropFront hint = l then hint
  else a :: l

end FunctionalList

/-- The path state: a stack of blocks with front = innermost region, and the
side index from (node, depth) to the state recorded for that node at that
stack depth. -/
structure ControlPathState where
  blocks_ : List (List NodeState)
  states_ : PMap

namespace ControlPathState

/-- The freshly constructed, empty path state. -/
def empty : ControlPathState := ⟨[], PMap.empty⟩

/-- Scan the side index at node from depth downward, returning the first set
entry. -/
def lookupAux (states : PMap) (node : Node) : Nat → NodeState
  | 0 => default
  | d + 1 =>
    let state := states.Get (node, d + 1)
    if state.IsSet then state else lookupAux states node d

/-- LookupState: returns the NodeState assigned to node, or the default
value if it is not assigned, scanning the side index from the current stack
size down to depth 1. -/
def LookupState (s : ControlPathState) (node : Node) : NodeState :=
  lookupAux s.states_ node s.blocks_.length

/-- AddState: adds a state in the current code block (or a new block if the
block list is empty), threading the hint state's front block into the
prepend for structural sharing, then records the state in the side index at
the resulting stack size. -/
def AddState (s : ControlPathState) (node : Node) (state : NodeState)
    (hint : ControlPathState) : ControlPathState :=
  let prev_front := FunctionalList.Front s.blocks_
  let prev_front :=
    if hint.blocks_.length > 0 then
      FunctionalList.PushFrontHint prev_front state
        (FunctionalList.Front hint.blocks_)
    else
      FunctionalList.PushFront prev_front state
  let blocks := FunctionalList.PushFront (FunctionalList.DropFront s.blocks_)
    prev_front
  { blocks_ := blocks
    states_ := s.states_.Set (node, blocks.length) state }

/-- AddStateInNewBlock: adds a state in a brand-new singleton block pushed
onto the stack, recording it in the side index at the incremented depth. -/
def AddStateInNewBlock (s : ControlPathState) (node : Node)
    (state : NodeState) : ControlPathState :=
  let new_block := FunctionalList.PushFront [] state
  { blocks_ := FunctionalList.PushFront s.blocks_ new_block
    states_ := s.states_.Set (node, s.blocks_.length + 1) state }

/-- IsEmpty: whether the block stack has size zero. -/
def IsEmpty (s : ControlPathState) : Bool := s.blocks_.length == 0

/-- Structural equality of path states, as the C++ operator==: equality of
the block stacks (the side index is derived data and not compared). -/
def Equals (a b : ControlPathState) : Prop := a.blocks_ = b.blocks_

/-- One iteration of the trimming loops of ResetToCommonAncestor: clear the
side-index entries of every state in the front block at the current stack
size, then drop the front block. -/
def clearDrop (s : ControlPathState) : ControlPathState :=
  { blocks_ := FunctionalList.DropFront s.blocks_
    states_ := (FunctionalList.Front s.blocks_).foldl
      (fun m st => m.Set (st.node, s.blocks_.length) default) s.states_ }

/-- The second loop of ResetToCommonAncestor, unrolled by its iteration
count: while the receiver is deeper than the other stack, clear-and-drop the
front block. -/
def trimSteps : Nat → ControlPathState → ControlPathState
  | 0, s => s
  | k + 1, s => trimSteps k (clearDrop s)

/-- The third, lockstep loop of ResetToCommonAncestor, with an explicit
iteration bound: while the two stacks differ, clear-and-drop the receiver's
front block and drop the other stack's front block.  When the two stacks
have equal size the bound s.blocks_.length is enough to reach the equality
condition (theorem lockstepSteps_spec below), so with that fuel this is the
unbounded C++ loop. -/
def lockstepSteps : Nat → ControlPathState → List (List NodeState) →
    ControlPathState
  | 0, s, _ => s
  | k + 1, s, other =>
    if s.blocks_ = other then s
    else lockstepSteps k (clearDrop s) (FunctionalList.DropFront other)

/-- ResetToCommonAncestor: reset this state to its longest prefix that is
common with the other state.  Phase 1 drops front blocks of (a copy of) the
other stack until it is no deeper than the receiver; phase 2 clears and
drops front blocks of the receiver until the depths agree; phase 3 clears
and drops from both in lockstep until the stacks are equal. -/
def ResetToCommonAncestor (s other : ControlPathState) : ControlPathState :=
  let otherBlocks := other.blocks_.drop
    (other.blocks_.length - s.blocks_.length)
  let s2 := trimSteps (s.blocks_.length - otherBlocks.length) s
  lockstepSteps s2.blocks_.length s2 otherBlocks

/-- The block of the stack sitting at depth d (depth counts from 1 at the
stack's back to the stack length at its front); the empty block when d is
out of range. -/
def blockAtDepth (blocks : List (List NodeState)) (d : Nat) :
    List NodeState :=
  if 1 ≤ d ∧ d ≤ blocks.length then blocks.getD (blocks.length - d) []
  else []

/-- The side index that the block stack induces: at key (n, d), the most
recently added state for node n in the block at depth d (the first
occurrence in the block, since blocks are prepend-only), or the default
value if there is none. -/
def indexOfBlocks (blocks : List (List NodeState)) : PMap :=
  fun k => ((blockAtDepth blocks k.2).find? (fun st => st.node == k.1)).getD
    default

/-- BlocksAndStatesInvariant: the contents of the block stack and of the
side index agree.  This is the debug-mode consistency check of the C++
code expressed over the total-function model of the persistent map: walking
the blocks front to back, each first-per-block occurrence of a node must be
the index entry at that depth, and erasing all of those must leave the
index empty -- which together say the index is exactly the one the block
stack induces. -/
def BlocksAndStatesInvariant (s : ControlPathState) : Prop :=
  ∀ k, s.states_ k = indexOfBlocks s.blocks_ k

end ControlPathState

/-- The outcome a reducer reports to the driving graph-reduction engine. -/
inductive Reduction where
  | Changed (node : Node)
  | NoChange
  deriving DecidableEq

/-- Modelled from the spec: the per-node side table primitive
(node-aux-data.h is not among the analysed sources) storing each node's
reduced flag; Set stores the value and reports whether the stored value
changed. -/
def setReduced (f : Node → Bool) (n : Node) (v : Bool) :
    (Node → Bool) × Bool :=
  if f n = v then (f, false)
  else (fun m => if m = n then v else f m, true)

/-- Modelled from the spec: the per-node side table storing each node's
ControlPathState; Set reports whether the stored value changed, comparing
values by the path states' structural (block stack) equality, and keeps the
previously stored value when the comparison says equal. -/
def setNodeState (f : Node → ControlPathState) (n : Node)
    (v : ControlPathState) : (Node → ControlPathState) × Bool :=
  if (f n).blocks_ = v.blocks_ then (f, false)
  else (fun m => if m = n then v else f m, true)

/-- The state of an AdvancedReducerWithControlPathState: the two per-node
side tables. -/
structure ReducerState where
  node_states_ : Node → ControlPathState
  reduced_ : Node → Bool

namespace ReducerState

/-- The reducer state at construction: every node maps to the empty path
state and is unreduced. -/
def init : ReducerState :=
  ⟨fun _ => ControlPathState.empty, fun _ => false⟩

/-- GetState of the mixin. -/
def GetState (r : ReducerState) (node : Node) : ControlPathState :=
  r.node_states_ node

/-- IsReduced of the mixin. -/
def IsReduced (r : ReducerState) (node : Node) : Bool := r.reduced_ node

/-- The two-argument UpdateStates: update the state of state_owner to
new_state, marking it reduced, and signal Changed exactly when the reduced
flag or the stored state changed. -/
def UpdateStates (r : ReducerState) (state_owner : Node)
    (new_state : ControlPathState) : ReducerState × Reduction :=
  let rc := setReduced r.reduced_ state_owner true
  let nc := setNodeState r.node_states_ state_owner new_state
  (⟨nc.1, rc.1⟩,
   if rc.2 || nc.2 then Reduction.Changed state_owner else Reduction.NoChange)

/-- The five-argument UpdateStates: update the state of state_owner to
prev_states plus additional_state assigned to additional_node, forcing the
new state into a new block if in_new_block (or if prev_states is empty),
otherwise extending the front block with the owner's previously stored
state as sharing hint. -/
def UpdateStatesWith (r : ReducerState) (state_owner : Node)
    (prev_states : ControlPathState) (additional_node : Node)
    (additional_state : NodeState) (in_new_block : Bool) :
    ReducerState × Reduction :=
  let next :=
    if in_new_block || prev_states.IsEmpty then
      prev_states.AddStateInNewBlock additional_node additional_state
    else
      prev_states.AddState additional_node additional_state
        (r.node_states_ state_owner)
  UpdateStates r state_owner next

/-- TakeStatesFromFirstControl: propagate the information from the first
control input, whose identity the graph supplies through controlInput; a
node whose control input has not been reduced yet reports NoChange and is
left untouched. -/
def TakeStatesFromFirstControl (r : ReducerState)
    (controlInput : Node → Node) (node : Node) : ReducerState × Reduction :=
  let input := controlInput node
  if r.reduced_ input = false then (r, Reduction.NoChange)
  else UpdateStates r node (r.node_states_ input)

end ReducerState

/-! Sequences of mutating operations, for stating lookup correctness over
arbitrary histories of AddState / AddStateInNewBlock calls. -/

/-- One mutating call: extend the current block (AddState, with an arbitrary
hint) or start a new block (AddStateInNewBlock). -/
inductive Op where
  | extend (node : Node) (state : NodeState) (hint : ControlPathState)
  | startBlock (node : Node) (state : NodeState)

/-- The node argument of an operation. -/
def Op.node : Op → Node
  | .extend n _ _ => n
  | .startBlock n _ => n

/-- The state argument of an operation. -/
def Op.state : Op → NodeState
  | .extend _ st _ => st
  | .startBlock _ st => st

/-- Apply one operation to a path state. -/
def applyOp (s : ControlPathState) : Op → ControlPathState
  | .extend n st hint => s.AddState n st hint
  | .startBlock n st => s.AddStateInNewBlock n st

/-- Run a sequence of operations, oldest first. -/
def run (s : ControlPathState) (ops : List Op) : ControlPathState :=
  ops.foldl applyOp s

/-- An operation is well formed when the recorded state is owned by the node
it is keyed under and represents a real fact. -/
def WFOp (op : Op) : Prop :=
  op.state.node = op.node ∧ op.state.IsSet = true

instance : DecidablePred WFOp := fun op => by
  unfold WFOp
  infer_instance

/-- The fact most recently added for node n by a sequence of operations. -/
def lastFactFor (n : Node) (ops : List Op) : Option NodeState :=
  List.getLast?
    (ops.filterMap fun op => if op.node = n then some op.state else none)

/-! Concrete sample data used to instantiate the theorems below. -/

def wSt1 : NodeState := ⟨1, some 11⟩

def wSt2 : NodeState := ⟨2, some 22⟩

def wSt3 : NodeState := ⟨3, some 33⟩

def wSt4 : NodeState := ⟨4, some 44⟩

/-- A sample path state: one block holding the fact for node 3. -/
def wA : ControlPathState := ControlPathState.empty.AddStateInNewBlock 3 wSt3

/-- A sample path state: one block holding the fact for node 4. -/
def wB : ControlPathState := ControlPathState.empty.AddStateInNewBlock 4 wSt4

/-- A sample operation history. -/
def wOps : List Op :=
  [Op.startBlock 1 wSt1, Op.extend 2 wSt2 ControlPathState.empty,
    Op.startBlock 2 ⟨2, some 55⟩]

/-! Basic lemmas about the primitives. -/

theorem PushFrontHint_eq_cons [Inhabited α] [DecidableEq α] (l : List α)
    (a : α) (hint : List α) :
    FunctionalList.PushFrontHint l a hint = a :: l := by
  unfold FunctionalList.PushFrontHint
  split
  · next h =>
    obtain ⟨hlen, hfront, hrest⟩ := h
    cases hint with
    | nil => simp at hlen
    | cons x t =>
      simp [FunctionalList.Front, FunctionalList.DropFront] at hfront hrest
      rw [hfront, hrest]
  · rfl

theorem PMap.Set_self (m : PMap) (k : NodeWithPathDepth) (v : NodeState) :
    (m.Set k v) k = v := by
  simp [PMap.Set]

theorem PMap.Set_ne (m : PMap) (k q : NodeWithPathDepth) (v : NodeState)
    (h : q ≠ k) : (m.Set k v) q = m q := by
  simp [PMap.Set, h]

theorem default_not_IsSet : (default : NodeState).IsSet = false := rfl

namespace ControlPathState

theorem lookupAux_congr (m₁ m₂ : PMap) (n : Node) (D : Nat)
    (h : ∀ d, 1 ≤ d → d ≤ D → m₁ (n, d) = m₂ (n, d)) :
    lookupAux m₁ n D = lookupAux m₂ n D := by
  induction D with
  | zero => rfl
  | succ D ih =>
    have hd : m₁ (n, D + 1) = m₂ (n, D + 1) := h (D + 1) (by omega) (by omega)
    simp only [lookupAux, PMap.Get, hd]
    split
    · rfl
    · exact ih fun d h1 h2 => h d h1 (by omega)

theorem lookupAux_default (m : PMap) (n : Node) (D : Nat)
    (h : ∀ d, 1 ≤ d → d ≤ D → (m (n, d)).IsSet = false) :
    lookupAux m n D = default := by
  induction D with
  | zero => rfl
  | succ D ih =>
    simp only [lookupAux, PMap.Get, h (D + 1) (by omega) (by omega)]
    simp only [Bool.false_eq_true, if_false]
    exact ih fun d h1 h2 => h d h1 (by omega)

theorem lookupAux_succ (m : PMap) (n : Node) (D : Nat) :
    lookupAux m n (D + 1) =
      if (m (n, D + 1)).IsSet then m (n, D + 1) else lookupAux m n D := rfl

theorem blockAtDepth_out (blocks : List (List NodeState)) (d : Nat)
    (h : d = 0 ∨ blocks.length < d) : blockAtDepth blocks d = [] := by
  unfold blockAtDepth
  rcases h with h | h
  · simp [h]
  · rw [if_neg]; omega

theorem blockAtDepth_cons_lt (b : List NodeState)
    (rest : List (List NodeState)) (d : Nat) (h1 : 1 ≤ d)
    (h2 : d ≤ rest.length) :
    blockAtDepth (b :: rest) d = blockAtDepth rest d := by
  unfold blockAtDepth
  have hlen : (b :: rest).length = rest.length + 1 := rfl
  rw [hlen]
  have hc1 : (1 ≤ d ∧ d ≤ rest.length + 1) := ⟨h1, by omega⟩
  have hc2 : (1 ≤ d ∧ d ≤ rest.length) := ⟨h1, h2⟩
  rw [if_pos hc1, if_pos hc2]
  have : rest.length + 1 - d = (rest.length - d) + 1 := by omega
  rw [this]
  rfl

theorem blockAtDepth_cons_top (b : List NodeState)
    (rest : List (List NodeState)) :
    blockAtDepth (b :: rest) (rest.length + 1) = b := by
  unfold blockAtDepth
  have hlen : (b :: rest).length = rest.length + 1 := rfl
  rw [hlen, if_pos ⟨by omega, le_refl _⟩]
  simp

theorem indexOfBlocks_empty (k : NodeWithPathDepth) :
    indexOfBlocks [] k = default := by
  obtain ⟨n, d⟩ := k
  unfold indexOfBlocks
  rw [blockAtDepth_out]
  · rfl
  · simp only [List.length_nil]; omega

theorem Front_nil : FunctionalList.Front ([] : List (List NodeState)) = [] :=
  rfl

theorem Front_cons (b : List NodeState) (rest : List (List NodeState)) :
    FunctionalList.Front (b :: rest) = b := rfl

theorem indexOfBlocks_apply (blocks : List (List NodeState)) (n : Node)
    (d : Nat) :
    indexOfBlocks blocks (n, d) =
      ((blockAtDepth blocks d).find? (fun st => st.node == n)).getD default :=
  rfl

/-- Normal form of AddState: prepend the state to the front block (the empty
block when the stack is empty) and record it in the side index at the
resulting stack size. -/
theorem AddState_eq (s : ControlPathState) (node : Node) (st : NodeState)
    (hint : ControlPathState) :
    s.AddState node st hint =
      ⟨(st :: FunctionalList.Front s.blocks_) ::
          FunctionalList.DropFront s.blocks_,
        s.states_.Set
          (node, (FunctionalList.DropFront s.blocks_).length + 1) st⟩ := by
  by_cases h : hint.blocks_.length > 0 <;>
    simp [AddState, h, PushFrontHint_eq_cons, FunctionalList.PushFront]

theorem inv_AddState (s : ControlPathState) (node : Node) (st : NodeState)
    (hint : ControlPathState) (hInv : s.BlocksAndStatesInvariant)
    (hn : st.node = node) :
    (s.AddState node st hint).BlocksAndStatesInvariant := by
  intro k
  obtain ⟨n, d⟩ := k
  rw [AddState_eq]
  cases hb : s.blocks_ with
  | nil =>
    simp only [Front_nil, FunctionalList.DropFront, List.tail_nil,
      List.length_nil, Nat.zero_add]
    by_cases hkey : ((n, d) : NodeWithPathDepth) = (node, 1)
    · have hL : (s.states_.Set (node, 1) st) (n, d) = st := by
        rw [hkey]; exact PMap.Set_self _ _ _
      rw [hL]
      obtain ⟨hk1, hk2⟩ := Prod.mk.injEq _ _ _ _ ▸ hkey
      subst hk1; subst hk2
      rw [indexOfBlocks_apply]
      have hblk : blockAtDepth [[st]] 1 = [st] :=
        blockAtDepth_cons_top [st] []
      rw [hblk]
      simp [List.find?, hn]
    · rw [PMap.Set_ne _ _ _ _ hkey]
      have hL : s.states_ (n, d) = default := by
        rw [hInv (n, d), hb]; exact indexOfBlocks_empty _
      rw [hL, indexOfBlocks_apply]
      by_cases hd : d = 1
      · subst hd
        have hn2 : n ≠ node := fun h => hkey (by rw [h])
        have hblk : blockAtDepth [[st]] 1 = [st] :=
          blockAtDepth_cons_top [st] []
        rw [hblk]
        have : (st.node == n) = false := by
          simp [hn, Ne.symm hn2]
        simp [List.find?, this]
      · rw [blockAtDepth_out]
        · rfl
        · simp only [List.length_cons, List.length_nil]; omega
  | cons f rest =>
    simp only [Front_cons, FunctionalList.DropFront, List.tail_cons]
    by_cases hkey : ((n, d) : NodeWithPathDepth) = (node, rest.length + 1)
    · have hL : (s.states_.Set (node, rest.length + 1) st) (n, d) = st := by
        rw [hkey]; exact PMap.Set_self _ _ _
      rw [hL]
      obtain ⟨hk1, hk2⟩ := Prod.mk.injEq _ _ _ _ ▸ hkey
      subst hk1; subst hk2
      rw [indexOfBlocks_apply]
      have hblk : blockAtDepth ((st :: f) :: rest) (rest.length + 1) =
          st :: f := blockAtDepth_cons_top (st :: f) rest
      rw [hblk]
      simp [List.find?, hn]
    · rw [PMap.Set_ne _ _ _ _ hkey]
      have hL : s.states_ (n, d) = indexOfBlocks (f :: rest) (n, d) := by
        rw [hInv (n, d), hb]
      rw [hL, indexOfBlocks_apply, indexOfBlocks_apply]
      by_cases hd : d = rest.length + 1
      · subst hd
        have hn2 : n ≠ node := fun h => hkey (by rw [h])
        have hblk1 : blockAtDepth ((st :: f) :: rest) (rest.length + 1) =
            st :: f := blockAtDepth_cons_top (st :: f) rest
        have hblk2 : blockAtDepth (f :: rest) (rest.length + 1) = f :=
          blockAtDepth_cons_top f rest
        rw [hblk1, hblk2]
        have : (st.node == n) = false := by simp [hn, Ne.symm hn2]
        simp [List.find?, this]
      · by_cases hd2 : 1 ≤ d ∧ d ≤ rest.length
        · rw [blockAtDepth_cons_lt _ _ _ hd2.1 hd2.2,
            blockAtDepth_cons_lt _ _ _ hd2.1 hd2.2]
        · rw [blockAtDepth_out, blockAtDepth_out]
          · simp only [List.length_cons]; omega
          · simp only [List.length_cons]; omega

theorem inv_AddStateInNewBlock (s : ControlPathState) (node : Node)
    (st : NodeState) (hInv : s.BlocksAndStatesInvariant)
    (hn : st.node = node) :
    (s.AddStateInNewBlock node st).BlocksAndStatesInvariant := by
  intro k
  obtain ⟨n, d⟩ := k
  simp only [AddStateInNewBlock, FunctionalList.PushFront]
  by_cases hkey : ((n, d) : NodeWithPathDepth) = (node, s.blocks_.length + 1)
  · have hL : (s.states_.Set (node, s.blocks_.length + 1) st) (n, d) = st := by
      rw [hkey]; exact PMap.Set_self _ _ _
    rw [hL]
    obtain ⟨hk1, hk2⟩ := Prod.mk.injEq _ _ _ _ ▸ hkey
    subst hk1; subst hk2
    rw [indexOfBlocks_apply]
    have hblk : blockAtDepth ([st] :: s.blocks_) (s.blocks_.length + 1) =
        [st] := blockAtDepth_cons_top [st] s.blocks_
    rw [hblk]
    simp [List.find?, hn]
  · rw [PMap.Set_ne _ _ _ _ hkey]
    rw [hInv (n, d), indexOfBlocks_apply, indexOfBlocks_apply]
    by_cases hd : d = s.blocks_.length + 1
    · subst hd
      have hn2 : n ≠ node := fun h => hkey (by rw [h])
      have hblk : blockAtDepth ([st] :: s.blocks_) (s.blocks_.length + 1) =
          [st] := blockAtDepth_cons_top [st] s.blocks_
      rw [hblk]
      rw [blockAtDepth_out s.blocks_ _ (Or.inr (by omega))]
      have : (st.node == n) = false := by simp [hn, Ne.symm hn2]
      simp [List.find?, this]
    · by_cases hd2 : 1 ≤ d ∧ d ≤ s.blocks_.length
      · rw [blockAtDepth_cons_lt _ _ _ hd2.1 hd2.2]
      · rw [blockAtDepth_out, blockAtDepth_out]
        · simp only [List.length_cons]; omega
        · omega

theorem clearFold (block : List NodeState) (m : PMap) (dep : Nat) (n : Node)
    (d : Nat) :
    (block.foldl (fun m2 st => m2.Set (st.node, dep) default) m) (n, d) =
      if d = dep ∧ n ∈ block.map NodeState.node then default else m (n, d) := by
  induction block generalizing m with
  | nil => simp
  | cons st bs ih =>
    rw [List.foldl_cons, ih]
    by_cases h1 : d = dep ∧ n ∈ bs.map NodeState.node
    · rw [if_pos h1, if_pos ⟨h1.1, by simp [h1.2]⟩]
    · rw [if_neg h1]
      by_cases h2 : ((n, d) : NodeWithPathDepth) = (st.node, dep)
      · obtain ⟨hk1, hk2⟩ := Prod.mk.injEq _ _ _ _ ▸ h2
        rw [if_pos ⟨hk2, by simp [hk1]⟩]
        rw [h2]; exact PMap.Set_self _ _ _
      · rw [PMap.Set_ne _ _ _ _ h2, if_neg]
        rintro ⟨hdd, hmem⟩
        rcases List.mem_map.mp hmem with ⟨x, hx, hxn⟩
        rcases List.mem_cons.mp hx with hx1 | hx2
        · exact h2 (by rw [hx1] at hxn; rw [hxn, hdd])
        · exact h1 ⟨hdd, List.mem_map.mpr ⟨x, hx2, hxn⟩⟩

theorem clearDrop_blocks (s : ControlPathState) :
    s.clearDrop.blocks_ = s.blocks_.tail := rfl

theorem clearDrop_states (s : ControlPathState) (n : Node) (d : Nat) :
    s.clearDrop.states_ (n, d) =
      if d = s.blocks_.length ∧
          n ∈ (FunctionalList.Front s.blocks_).map NodeState.node then default
      else s.states_ (n, d) :=
  clearFold _ _ _ _ _

theorem find?_eq_none_of_not_mem (block : List NodeState) (n : Node)
    (h : n ∉ block.map NodeState.node) :
    block.find? (fun st => st.node == n) = none := by
  rw [List.find?_eq_none]
  intro x hx
  simp only [beq_eq_false_iff_ne, ne_eq, beq_iff_eq]
  intro hxn
  exact h (List.mem_map.mpr ⟨x, hx, hxn⟩)

theorem inv_clearDrop (s : ControlPathState)
    (hInv : s.BlocksAndStatesInvariant) :
    s.clearDrop.BlocksAndStatesInvariant := by
  intro k
  obtain ⟨n, d⟩ := k
  rw [clearDrop_states]
  cases hb : s.blocks_ with
  | nil =>
    simp only [hb, List.length_nil, Front_nil, List.map_nil,
      List.not_mem_nil, and_false, if_false]
    have := hInv (n, d)
    rw [hb] at this
    rw [this, indexOfBlocks_empty]
    have : s.clearDrop.blocks_ = [] := by rw [clearDrop_blocks, hb]; rfl
    rw [this, indexOfBlocks_empty]
  | cons f rest =>
    have hblocks : s.clearDrop.blocks_ = rest := by
      rw [clearDrop_blocks, hb, List.tail_cons]
    rw [hblocks]
    simp only [hb, List.length_cons, Front_cons]
    by_cases hc : d = rest.length + 1 ∧ n ∈ f.map NodeState.node
    · rw [if_pos hc, indexOfBlocks_apply,
        blockAtDepth_out rest _ (Or.inr (by omega))]
      rfl
    · rw [if_neg hc]
      have hL := hInv (n, d)
      rw [hb] at hL
      rw [hL, indexOfBlocks_apply, indexOfBlocks_apply]
      by_cases hd : d = rest.length + 1
      · have hmem : n ∉ f.map NodeState.node := fun hm => hc ⟨hd, hm⟩
        subst hd
        rw [blockAtDepth_cons_top, blockAtDepth_out rest _ (Or.inr (by omega))]
        rw [find?_eq_none_of_not_mem _ _ hmem]
        rfl
      · by_cases hd2 : 1 ≤ d ∧ d ≤ rest.length
        · rw [blockAtDepth_cons_lt _ _ _ hd2.1 hd2.2]
        · rw [blockAtDepth_out, blockAtDepth_out]
          · omega
          · simp only [List.length_cons]; omega

theorem inv_trimSteps (k : Nat) (s : ControlPathState)
    (hInv : s.BlocksAndStatesInvariant) :
    (trimSteps k s).BlocksAndStatesInvariant := by
  induction k generalizing s with
  | zero => exact hInv
  | succ k ih => exact ih _ (inv_clearDrop _ hInv)

theorem inv_lockstepSteps (fuel : Nat) (s : ControlPathState)
    (other : List (List NodeState)) (hInv : s.BlocksAndStatesInvariant) :
    (lockstepSteps fuel s other).BlocksAndStatesInvariant := by
  induction fuel generalizing s other with
  | zero => exact hInv
  | succ fuel ih =>
    rw [lockstepSteps]
    split
    · exact hInv
    · exact ih _ _ (inv_clearDrop _ hInv)

theorem inv_ResetToCommonAncestor (s other : ControlPathState)
    (hInv : s.BlocksAndStatesInvariant) :
    (s.ResetToCommonAncestor other).BlocksAndStatesInvariant := by
  unfold ResetToCommonAncestor
  exact inv_lockstepSteps _ _ _ (inv_trimSteps _ _ hInv)

theorem inv_empty : ControlPathState.empty.BlocksAndStatesInvariant :=
  fun k => (indexOfBlocks_empty k).symm

theorem indexOfBlocks_out (blocks : List (List NodeState)) (n : Node)
    (d : Nat) (h : d = 0 ∨ blocks.length < d) :
    indexOfBlocks blocks (n, d) = default := by
  rw [indexOfBlocks_apply, blockAtDepth_out _ _ h]
  rfl

/-! How LookupState reacts to each mutating operation. -/

theorem LookupState_AddState_self (s : ControlPathState) (node : Node)
    (st : NodeState) (hint : ControlPathState) (hset : st.IsSet = true) :
    (s.AddState node st hint).LookupState node = st := by
  rw [AddState_eq]
  unfold LookupState
  simp only [List.length_cons]
  rw [lookupAux_succ, PMap.Set_self, hset, if_pos rfl]

theorem LookupState_AddState_other (s : ControlPathState) (node : Node)
    (st : NodeState) (hint : ControlPathState) (m : Node)
    (hInv : s.BlocksAndStatesInvariant) (hm : m ≠ node) :
    (s.AddState node st hint).LookupState m = s.LookupState m := by
  rw [AddState_eq]
  unfold LookupState
  simp only [List.length_cons]
  have hcongr : ∀ d, 1 ≤ d → d ≤ (FunctionalList.DropFront s.blocks_).length + 1 →
      (s.states_.Set (node, (FunctionalList.DropFront s.blocks_).length + 1) st)
        (m, d) = s.states_ (m, d) := by
    intro d _ _
    exact PMap.Set_ne _ _ _ _ (by simp [hm])
  rw [lookupAux_congr _ _ _ _ hcongr]
  cases hb : s.blocks_ with
  | nil =>
    simp only [FunctionalList.DropFront, List.tail_nil, List.length_nil,
      List.length_nil, Nat.zero_add]
    rw [lookupAux_succ]
    have h1 : s.states_ (m, 1) = default := by
      rw [hInv (m, 1), hb]; exact indexOfBlocks_empty _
    rw [h1, default_not_IsSet]
    rfl
  | cons f rest =>
    simp only [FunctionalList.DropFront, List.tail_cons, List.length_cons]

theorem LookupState_AddStateInNewBlock_self (s : ControlPathState)
    (node : Node) (st : NodeState) (hset : st.IsSet = true) :
    (s.AddStateInNewBlock node st).LookupState node = st := by
  unfold AddStateInNewBlock LookupState FunctionalList.PushFront
  simp only [List.length_cons]
  rw [lookupAux_succ, PMap.Set_self, hset, if_pos rfl]

theorem LookupState_AddStateInNewBlock_other (s : ControlPathState)
    (node : Node) (st : NodeState) (m : Node)
    (hInv : s.BlocksAndStatesInvariant) (hm : m ≠ node) :
    (s.AddStateInNewBlock node st).LookupState m = s.LookupState m := by
  unfold AddStateInNewBlock LookupState FunctionalList.PushFront
  simp only [List.length_cons]
  have hcongr : ∀ d, 1 ≤ d → d ≤ s.blocks_.length + 1 →
      (s.states_.Set (node, s.blocks_.length + 1) st) (m, d) =
        s.states_ (m, d) := by
    intro d _ _
    exact PMap.Set_ne _ _ _ _ (by simp [hm])
  rw [lookupAux_congr _ _ _ _ hcongr, lookupAux_succ]
  have h1 : s.states_ (m, s.blocks_.length + 1) = default := by
    rw [hInv (m, s.blocks_.length + 1)]
    exact indexOfBlocks_out _ _ _ (Or.inr (by omega))
  rw [h1, default_not_IsSet]
  rfl

/-! Behaviour of the trimming and lockstep loops of ResetToCommonAncestor. -/

theorem trimSteps_blocks (k : Nat) (s : ControlPathState) :
    (trimSteps k s).blocks_ = s.blocks_.drop k := by
  induction k generalizing s with
  | zero => rw [trimSteps, List.drop_zero]
  | succ k ih =>
    rw [trimSteps, ih, clearDrop_blocks]
    cases s.blocks_ with
    | nil => simp
    | cons b t => rw [List.tail_cons, List.drop_succ_cons]

theorem trimSteps_states (k : Nat) (s : ControlPathState) (n : Node) (d : Nat)
    (h : d + k ≤ s.blocks_.length) :
    (trimSteps k s).states_ (n, d) = s.states_ (n, d) := by
  induction k generalizing s with
  | zero => rfl
  | succ k ih =>
    rw [trimSteps]
    have hlen : (clearDrop s).blocks_.length = s.blocks_.length - 1 := by
      rw [clearDrop_blocks, List.length_tail]
    rw [ih _ (by omega), clearDrop_states, if_neg]
    rintro ⟨hd, _⟩
    omega

theorem lockstepSteps_stop (f : Nat) (s : ControlPathState)
    (other : List (List NodeState)) (h : s.blocks_ = other) :
    lockstepSteps f s other = s := by
  cases f with
  | zero => rfl
  | succ f => rw [lockstepSteps, if_pos h]

/-- When the two stacks have equal size, the lockstep loop reaches the
equality condition within size iterations: extra fuel does not change the
result, and the exit state's stack equals what remains of the other
stack. -/
theorem lockstepSteps_spec (other : List (List NodeState))
    (s : ControlPathState) (h : s.blocks_.length = other.length) :
    (∀ f, other.length ≤ f →
      lockstepSteps f s other = lockstepSteps other.length s other) ∧
    (lockstepSteps other.length s other).blocks_ =
      other.drop
        (other.length - (lockstepSteps other.length s other).blocks_.length)
    := by
  induction other generalizing s with
  | nil =>
    have hs : s.blocks_ = [] := List.length_eq_zero.mp h
    have hrun : ∀ f, lockstepSteps f s [] = s := fun f =>
      lockstepSteps_stop f s [] hs
    refine ⟨fun f _ => by rw [hrun f]; exact (hrun _).symm, ?_⟩
    rw [hrun, hs, List.drop_nil]
  | cons o ot ih =>
    by_cases heq : s.blocks_ = o :: ot
    · have hstop : ∀ f, lockstepSteps f s (o :: ot) = s := fun f =>
        lockstepSteps_stop f s _ heq
      refine ⟨fun f _ => by rw [hstop f]; exact (hstop _).symm, ?_⟩
      rw [hstop, heq]
      simp
    · have hstep : ∀ f, lockstepSteps (f + 1) s (o :: ot) =
          lockstepSteps f (clearDrop s) ot := by
        intro f
        rw [lockstepSteps, if_neg heq]
        rfl
      have hlen : (clearDrop s).blocks_.length = ot.length := by
        rw [clearDrop_blocks, List.length_tail, h, List.length_cons]
        omega
      obtain ⟨ihA, ihB⟩ := ih (clearDrop s) hlen
      have hmain : lockstepSteps (o :: ot).length s (o :: ot) =
          lockstepSteps ot.length (clearDrop s) ot := by
        rw [List.length_cons, hstep]
      constructor
      · intro f hf
        rw [List.length_cons] at hf
        cases f with
        | zero => omega
        | succ f => rw [hstep, ihA f (by omega), hmain]
      · rw [hmain]
        have hle : (lockstepSteps ot.length (clearDrop s) ot).blocks_.length ≤
            ot.length := by
          rw [ihB, List.length_drop]
          omega
        have harith : (o :: ot).length -
            (lockstepSteps ot.length (clearDrop s) ot).blocks_.length =
            (ot.length -
              (lockstepSteps ot.length (clearDrop s) ot).blocks_.length) + 1
            := by
          rw [List.length_cons]
          omega
        rw [harith, List.drop_succ_cons]
        exact ihB

theorem getLast?_cons_of_ne_nil (a : List NodeState)
    (l : List (List NodeState)) (h : l ≠ []) :
    (a :: l).getLast? = l.getLast? := by
  cases l with
  | nil => exact absurd rfl h
  | cons b t => rfl

theorem getLast?_drop (l : List (List NodeState)) (j : Nat)
    (h : l.drop j ≠ []) : (l.drop j).getLast? = l.getLast? := by
  induction j generalizing l with
  | zero => rw [List.drop_zero]
  | succ j ih =>
    cases l with
    | nil => exact absurd rfl h
    | cons a t =>
      rw [List.drop_succ_cons] at h ⊢
      rw [ih t h]
      have ht : t ≠ [] := by
        intro he
        rw [he, List.drop_nil] at h
        exact h rfl
      exact (getLast?_cons_of_ne_nil a t ht).symm

theorem dropAppend (l₁ l₂ : List (List NodeState)) (j : Nat)
    (h : j ≤ l₁.length) : (l₁ ++ l₂).drop j = l₁.drop j ++ l₂ := by
  induction l₁ generalizing j with
  | nil =>
    have : j = 0 := by simpa using h
    rw [this, List.drop_zero, List.drop_zero]
  | cons a t ih =>
    cases j with
    | zero => rw [List.drop_zero, List.drop_zero]
    | succ j =>
      rw [List.cons_append, List.drop_succ_cons, List.drop_succ_cons]
      exact ih j (by simpa using h)

theorem blockAtDepth_append_le (xa p : List (List NodeState)) (d : Nat)
    (h1 : 1 ≤ d) (h2 : d ≤ p.length) :
    blockAtDepth (xa ++ p) d = blockAtDepth p d := by
  induction xa with
  | nil => rw [List.nil_append]
  | cons x t ih =>
    rw [List.cons_append,
      blockAtDepth_cons_lt _ _ _ h1 (by rw [List.length_append]; omega), ih]

/-- The lockstep loop applied to two stacks that diverge right after a
common tail p (equal-length extensions whose first-pushed blocks differ, or
no extension on either side) stops exactly at p, and the side-index entries
at the depths of p are untouched. -/
theorem lockstep_reaches_common (ya : List (List NodeState))
    (yb p : List (List NodeState)) (s : ControlPathState)
    (hs : s.blocks_ = ya ++ p) (hlen : ya.length = yb.length)
    (hdiv : ya.getLast? ≠ yb.getLast? ∨ (ya = [] ∧ yb = [])) :
    (lockstepSteps s.blocks_.length s (yb ++ p)).blocks_ = p ∧
    ∀ n d, d ≤ p.length →
      (lockstepSteps s.blocks_.length s (yb ++ p)).states_ (n, d) =
        s.states_ (n, d) := by
  induction ya generalizing yb s with
  | nil =>
    have hyb : yb = [] := (List.length_eq_zero.mp hlen.symm)
    subst hyb
    rw [List.nil_append] at hs
    rw [List.nil_append, lockstepSteps_stop _ _ _ hs]
    exact ⟨hs, fun n d _ => rfl⟩
  | cons a ya ih =>
    cases yb with
    | nil => simp at hlen
    | cons b yb =>
      have hlen' : ya.length = yb.length := by simpa using hlen
      have hne : s.blocks_ ≠ (b :: yb) ++ p := by
        rw [hs]
        intro heq
        rw [List.cons_append, List.cons_append] at heq
        obtain ⟨hab, htail⟩ := List.cons.injEq _ _ _ _ ▸ heq
        obtain ⟨hy, -⟩ := List.append_inj htail (by omega)
        rcases hdiv with hdiv | ⟨hnil, -⟩
        · exact hdiv (by rw [hab, hy])
        · exact List.noConfusion hnil
      have hlength : s.blocks_.length = (ya.length + p.length) + 1 := by
        rw [hs, List.length_append, List.length_cons]
        omega
      rw [hlength, lockstepSteps, if_neg hne]
      have hdropb : FunctionalList.DropFront ((b :: yb) ++ p) = yb ++ p := by
        rw [List.cons_append]
        rfl
      rw [hdropb]
      have hcb : s.clearDrop.blocks_ = ya ++ p := by
        rw [clearDrop_blocks, hs, List.cons_append, List.tail_cons]
      have hclen : s.clearDrop.blocks_.length = ya.length + p.length := by
        rw [hcb, List.length_append]
      have hdiv' : ya.getLast? ≠ yb.getLast? ∨ (ya = [] ∧ yb = []) := by
        by_cases hyanil : ya = []
        · refine Or.inr ⟨hyanil, List.length_eq_zero.mp ?_⟩
          rw [hyanil, List.length_nil] at hlen'
          omega
        · have hybnil : yb ≠ [] := by
            intro he
            rw [he, List.length_nil] at hlen'
            exact hyanil (List.length_eq_zero.mp hlen')
          rcases hdiv with hdiv | ⟨hnil, -⟩
          · refine Or.inl ?_
            rw [← getLast?_cons_of_ne_nil a ya hyanil,
              ← getLast?_cons_of_ne_nil b yb hybnil]
            exact hdiv
          · exact absurd hnil (List.noConfusion)
      obtain ⟨ihA, ihB⟩ := ih yb s.clearDrop hcb hlen' hdiv'
      rw [hclen] at ihA ihB
      refine ⟨ihA, fun n d hd => ?_⟩
      rw [ihB n d hd, clearDrop_states, if_neg]
      rintro ⟨hdd, -⟩
      omega

/-- ResetToCommonAncestor on two states that extend a common tail of blocks
with divergent extensions (equal or different lengths; if both sides
extended, the blocks pushed first differ) trims the receiver exactly to the
common tail and leaves the side index untouched at the depths of that
tail. -/
theorem Reset_spec (A B P : ControlPathState) (xa xb : List (List NodeState))
    (hA : A.blocks_ = xa ++ P.blocks_) (hB : B.blocks_ = xb ++ P.blocks_)
    (hdiv : xa.getLast? ≠ xb.getLast? ∨ (xa = [] ∧ xb = [])) :
    (A.ResetToCommonAncestor B).blocks_ = P.blocks_ ∧
    ∀ n d, d ≤ P.blocks_.length →
      (A.ResetToCommonAncestor B).states_ (n, d) = A.states_ (n, d) := by
  set xbt := xb.drop (xb.length - xa.length) with hxbtdef
  have e1 : B.blocks_.drop (B.blocks_.length - A.blocks_.length) =
      xbt ++ P.blocks_ := by
    have hjb : B.blocks_.length - A.blocks_.length = xb.length - xa.length := by
      rw [hA, hB, List.length_append, List.length_append]
      omega
    rw [hjb, hB, hxbtdef]
    exact dropAppend _ _ _ (Nat.sub_le _ _)
  set k := A.blocks_.length - (xbt ++ P.blocks_).length with hkdef
  set A2 := trimSteps k A with hA2def
  have hreset : A.ResetToCommonAncestor B =
      lockstepSteps A2.blocks_.length A2 (xbt ++ P.blocks_) := by
    unfold ResetToCommonAncestor
    rw [e1]
  have hxbtlen : xbt.length = xb.length - (xb.length - xa.length) :=
    List.length_drop _ _
  have hk : k = xa.length - xbt.length := by
    rw [hkdef, hA, List.length_append, List.length_append]
    omega
  have hkle : k ≤ xa.length := by omega
  set xat := xa.drop k with hxatdef
  have htrimblocks : A2.blocks_ = xat ++ P.blocks_ := by
    rw [hA2def, trimSteps_blocks, hA, dropAppend _ _ _ hkle]
  have hxatlen : xat.length = xbt.length := by
    rw [hxatdef, List.length_drop]
    omega
  have hdiv' : xat.getLast? ≠ xbt.getLast? ∨ (xat = [] ∧ xbt = []) := by
    by_cases hm : xbt.length = 0
    · exact Or.inr ⟨List.length_eq_zero.mp (by omega),
        List.length_eq_zero.mp hm⟩
    · have hxatnil : xat ≠ [] := by
        intro he
        rw [he, List.length_nil] at hxatlen
        omega
      have hxbtnil : xbt ≠ [] := by
        intro he
        rw [he, List.length_nil] at hm
        omega
      rcases hdiv with hdiv | ⟨hxanil, hxbnil⟩
      · refine Or.inl ?_
        rw [hxatdef, getLast?_drop _ _ (hxatdef ▸ hxatnil),
          hxbtdef, getLast?_drop _ _ (hxbtdef ▸ hxbtnil)]
        exact hdiv
      · refine absurd ?_ hxbtnil
        rw [hxbtdef, hxbnil, List.drop_nil]
  obtain ⟨hblocks, hstates⟩ :=
    lockstep_reaches_common xat xbt P.blocks_ A2 htrimblocks hxatlen hdiv'
  rw [hreset]
  refine ⟨hblocks, fun n d hd => ?_⟩
  rw [hstates n d hd, hA2def]
  apply trimSteps_states
  rw [hA, List.length_append]
  omega

end ControlPathState

theorem inv_applyOp (s : ControlPathState) (op : Op) (hWF : WFOp op)
    (hInv : s.BlocksAndStatesInvariant) :
    (applyOp s op).BlocksAndStatesInvariant := by
  cases op with
  | extend n st hint => exact ControlPathState.inv_AddState s n st hint hInv hWF.1
  | startBlock n st => exact ControlPathState.inv_AddStateInNewBlock s n st hInv hWF.1

theorem inv_run (s : ControlPathState) (ops : List Op)
    (hWF : ∀ op ∈ ops, WFOp op) (hInv : s.BlocksAndStatesInvariant) :
    (run s ops).BlocksAndStatesInvariant := by
  induction ops generalizing s with
  | nil => exact hInv
  | cons op ops ih =>
    exact ih _ (fun o ho => hWF o (List.mem_cons_of_mem _ ho))
      (inv_applyOp s op (hWF op (List.mem_cons_self _ _)) hInv)

theorem LookupState_applyOp (s : ControlPathState) (op : Op) (m : Node)
    (hWF : WFOp op) (hInv : s.BlocksAndStatesInvariant) :
    (applyOp s op).LookupState m =
      if op.node = m then op.state else s.LookupState m := by
  cases op with
  | extend n st hint =>
    simp only [Op.node, Op.state]
    by_cases hm : n = m
    · subst hm
      rw [if_pos rfl]
      exact ControlPathState.LookupState_AddState_self s n st hint hWF.2
    · rw [if_neg hm]
      exact ControlPathState.LookupState_AddState_other s n st hint m hInv
        (fun h => hm h.symm)
  | startBlock n st =>
    simp only [Op.node, Op.state]
    by_cases hm : n = m
    · subst hm
      rw [if_pos rfl]
      exact ControlPathState.LookupState_AddStateInNewBlock_self s n st hWF.2
    · rw [if_neg hm]
      exact ControlPathState.LookupState_AddStateInNewBlock_other s n st m hInv
        (fun h => hm h.symm)

theorem lastFactFor_append_one (n : Node) (ops : List Op) (op : Op) :
    lastFactFor n (ops ++ [op]) =
      if op.node = n then some op.state else lastFactFor n ops := by
  unfold lastFactFor
  rw [List.filterMap_append]
  by_cases h : op.node = n
  · simp [List.filterMap, h]
  · simp [List.filterMap, h]

/-- Lookup correctness over any history: after running a well-formed
sequence of operations from the empty state, LookupState returns the most
recently added fact for the node, or the default value if there is none. -/
theorem LookupState_run (ops : List Op) (n : Node)
    (hWF : ∀ op ∈ ops, WFOp op) :
    (run ControlPathState.empty ops).LookupState n =
      (lastFactFor n ops).getD default := by
  induction ops using List.reverseRecOn with
  | nil => rfl
  | append_singleton ops op ih =>
    have hWFops : ∀ o ∈ ops, WFOp o := fun o ho =>
      hWF o (List.mem_append_left _ ho)
    have hWFop : WFOp op := hWF op (List.mem_append_right _ (List.mem_singleton_self _))
    have hrun : run ControlPathState.empty (ops ++ [op]) =
        applyOp (run ControlPathState.empty ops) op := by
      unfold run
      rw [List.foldl_append]
      rfl
    rw [hrun, LookupState_applyOp _ _ _ hWFop
      (inv_run _ _ hWFops ControlPathState.inv_empty),
      lastFactFor_append_one]
    by_cases h : op.node = n
    · rw [if_pos h, if_pos h]
      rfl
    · rw [if_neg h, if_neg h, ih hWFops]

theorem mem_blockAtDepth (blocks : List (List NodeState)) (d : Nat)
    (x : NodeState) (hx : x ∈ ControlPathState.blockAtDepth blocks d) :
    ∃ b ∈ blocks, x ∈ b := by
  unfold ControlPathState.blockAtDepth at hx
  split at hx
  · next hcond =>
    refine ⟨blocks.getD (blocks.length - d) [], ?_, hx⟩
    have hlt : blocks.length - d < blocks.length := by omega
    rw [List.getD_eq_getElem?_getD, List.getElem?_eq_getElem hlt]
    exact List.getElem_mem hlt
  · exact absurd hx (List.not_mem_nil x)

theorem UpdateStates_stored (r : ReducerState) (owner : Node)
    (ns : ControlPathState) :
    ((r.UpdateStates owner ns).1.node_states_ owner).blocks_ = ns.blocks_ := by
  unfold ReducerState.UpdateStates setNodeState setReduced
  by_cases h2 : (r.node_states_ owner).blocks_ = ns.blocks_
  · simp [h2]
  · simp [h2]

open ControlPathState

/-! The claims. -/

/-- C1: for two path states A and B obtained by extending a common prefix
state P with different facts after the divergence, ResetToCommonAncestor on
A with argument B leaves A structurally equal to P, and LookupState then
returns the default no-fact value for every node whose fact was added only
after the divergence. -/
theorem claim_C1 (A B P : ControlPathState) (xa xb : List (List NodeState))
    (n : Node) (hInv : A.BlocksAndStatesInvariant)
    (hA : A.blocks_ = xa ++ P.blocks_) (hB : B.blocks_ = xb ++ P.blocks_)
    (hdiv : xa.getLast? ≠ xb.getLast? ∨ (xa = [] ∧ xb = []))
    (_hafter : ∃ b ∈ xa, ∃ st ∈ b, st.node = n)
    (hnotP : ∀ b ∈ P.blocks_, ∀ st ∈ b, st.node ≠ n) :
    (A.ResetToCommonAncestor B).Equals P ∧
    (A.ResetToCommonAncestor B).LookupState n = default := by
  obtain ⟨hblocks, hstates⟩ := Reset_spec A B P xa xb hA hB hdiv
  refine ⟨hblocks, ?_⟩
  unfold LookupState
  rw [hblocks]
  apply lookupAux_default
  intro d h1 h2
  rw [hstates n d h2, hInv (n, d), indexOfBlocks_apply, hA,
    blockAtDepth_append_le _ _ _ h1 h2, find?_eq_none_of_not_mem]
  · rfl
  · intro hmem
    rcases List.mem_map.mp hmem with ⟨x, hx, hxn⟩
    rcases mem_blockAtDepth _ _ _ hx with ⟨b, hb, hxb⟩
    exact hnotP b hb x hxb hxn

/-- C2: each mutating operation (AddState, AddStateInNewBlock,
ResetToCommonAncestor), applied to a state whose side index and block stack
correspond, yields a state whose side index again corresponds exactly to
the block stack: at every depth the index entries are, one-to-one by owning
node and with the most recently added occurrence winning, the nodes of the
block at that depth, and the index holds nothing else. -/
theorem claim_C2 (s other hint : ControlPathState) (node : Node)
    (st : NodeState) (hInv : s.BlocksAndStatesInvariant)
    (hn : st.node = node) :
    (s.AddState node st hint).BlocksAndStatesInvariant ∧
    (s.AddStateInNewBlock node st).BlocksAndStatesInvariant ∧
    (s.ResetToCommonAncestor other).BlocksAndStatesInvariant :=
  ⟨inv_AddState s node st hint hInv hn,
    inv_AddStateInNewBlock s node st hInv hn,
    inv_ResetToCommonAncestor s other hInv⟩

/-- C3: after any well-formed sequence of AddState and AddStateInNewBlock
operations from the empty state, LookupState returns the most recently
added fact for the node still within the current stack, and the default
no-fact value if the node was never added. -/
theorem claim_C3 (ops : List Op) (n : Node) (hWF : ∀ op ∈ ops, WFOp op) :
    (run ControlPathState.empty ops).LookupState n =
      (lastFactFor n ops).getD default :=
  LookupState_run ops n hWF

/-- C4: adding facts f1 then f2 for the same node within one block makes
LookupState return f2 and not f1, while f1 stays in the block's sequence:
the front block is f2 followed by f1 followed by the previous front
block. -/
theorem claim_C4 (s : ControlPathState) (n : Node) (f1 f2 : NodeState)
    (h1 h2 : ControlPathState) (_hn1 : f1.node = n) (_hn2 : f2.node = n)
    (_hs1 : f1.IsSet = true) (hs2 : f2.IsSet = true) (hne : f1 ≠ f2) :
    ((s.AddState n f1 h1).AddState n f2 h2).LookupState n = f2 ∧
    ((s.AddState n f1 h1).AddState n f2 h2).LookupState n ≠ f1 ∧
    FunctionalList.Front ((s.AddState n f1 h1).AddState n f2 h2).blocks_ =
      f2 :: f1 :: FunctionalList.Front s.blocks_ := by
  have hl := LookupState_AddState_self (s.AddState n f1 h1) n f2 h2 hs2
  refine ⟨hl, by rw [hl]; exact fun hcontra => hne hcontra.symm, ?_⟩
  have hb1 : (s.AddState n f1 h1).blocks_ =
      (f1 :: FunctionalList.Front s.blocks_) ::
        FunctionalList.DropFront s.blocks_ := by
    rw [AddState_eq]
  have hb2 : ((s.AddState n f1 h1).AddState n f2 h2).blocks_ =
      (f2 :: FunctionalList.Front (s.AddState n f1 h1).blocks_) ::
        FunctionalList.DropFront (s.AddState n f1 h1).blocks_ := by
    rw [AddState_eq]
  rw [hb2, Front_cons, hb1, Front_cons]

/-- C5: the two-argument UpdateStates marks the owner reduced and stores the
new state, and reports Changed exactly when the reduced flag flipped from
unset or the stored state differs from the new one by the path states'
structural equality; in particular, re-invoking it with an equal state on an
already-reduced node reports NoChange. -/
theorem claim_C5 (r : ReducerState) (owner : Node) (ns : ControlPathState) :
    (r.UpdateStates owner ns).1.reduced_ owner = true ∧
    ((r.UpdateStates owner ns).1.node_states_ owner).blocks_ = ns.blocks_ ∧
    ((r.UpdateStates owner ns).2 = Reduction.Changed owner ↔
      (r.reduced_ owner = false ∨
        (r.node_states_ owner).blocks_ ≠ ns.blocks_)) := by
  refine ⟨?_, UpdateStates_stored r owner ns, ?_⟩
  · unfold ReducerState.UpdateStates setReduced setNodeState
    by_cases h1 : r.reduced_ owner = true
    · simp [h1]
    · simp [h1]
  · unfold ReducerState.UpdateStates setReduced setNodeState
    by_cases h1 : r.reduced_ owner = true <;>
      by_cases h2 : (r.node_states_ owner).blocks_ = ns.blocks_ <;>
        simp [h1, h2]

/-- C6: TakeStatesFromFirstControl reports NoChange and leaves the reducer
state untouched when the first control input's reduced flag is false, and
otherwise commits the control input's path state as the node's own state
through the two-argument UpdateStates and reports that call's outcome; in
the latter case the node's stored block stack is the predecessor's. -/
theorem claim_C6 (r : ReducerState) (ci : Node → Node) (node : Node) :
    r.TakeStatesFromFirstControl ci node =
      (if r.reduced_ (ci node) = false then (r, Reduction.NoChange)
        else r.UpdateStates node (r.node_states_ (ci node))) ∧
    ((r.TakeStatesFromFirstControl ci node).1.node_states_ node).blocks_ =
      (if r.reduced_ (ci node) = false then (r.node_states_ node).blocks_
        else (r.node_states_ (ci node)).blocks_) := by
  refine ⟨rfl, ?_⟩
  by_cases h : r.reduced_ (ci node) = false
  · simp [ReducerState.TakeStatesFromFirstControl, h]
  · simp only [ReducerState.TakeStatesFromFirstControl]
    rw [if_neg h, if_neg h]
    exact UpdateStates_stored _ _ _

/-- C7: AddState on a path state with an empty block stack behaves exactly
as AddStateInNewBlock: the result has a single block holding only the new
fact and the side index updated at depth 1. -/
theorem claim_C7 (s : ControlPathState) (node : Node) (st : NodeState)
    (hint : ControlPathState) (hempty : s.blocks_ = []) :
    s.AddState node st hint = s.AddStateInNewBlock node st ∧
    (s.AddState node st hint).blocks_ = [[st]] ∧
    (s.AddState node st hint).states_ = s.states_.Set (node, 1) st := by
  have ha : s.AddState node st hint = ⟨[[st]], s.states_.Set (node, 1) st⟩ := by
    rw [AddState_eq, hempty]
    rfl
  have hb : s.AddStateInNewBlock node st =
      ⟨[[st]], s.states_.Set (node, 1) st⟩ := by
    unfold AddStateInNewBlock FunctionalList.PushFront
    rw [hempty]
    rfl
  rw [ha, hb]
  exact ⟨rfl, rfl, rfl⟩

/-- C8: the lockstep loop of ResetToCommonAncestor terminates: each
iteration reduces the receiver's depth by one, and when the two stacks have
equal depth the loop reaches its equality condition within depth
iterations, so more fuel never changes the result and the exit stack equals
the remaining other stack. -/
theorem claim_C8 (s : ControlPathState) (other : List (List NodeState))
    (f : Nat) (hlen : s.blocks_.length = other.length)
    (hf : other.length ≤ f) :
    lockstepSteps f s other = lockstepSteps other.length s other ∧
    (lockstepSteps other.length s other).blocks_ =
      other.drop (other.length -
        (lockstepSteps other.length s other).blocks_.length) ∧
    (clearDrop s).blocks_.length = s.blocks_.length - 1 := by
  obtain ⟨hrun, hexit⟩ := lockstepSteps_spec other s hlen
  exact ⟨hrun f hf, hexit, by rw [clearDrop_blocks, List.length_tail]⟩

/-- C9: ResetToCommonAncestor with a structurally equal state is a no-op:
the receiver is returned unchanged and every LookupState result is
preserved. -/
theorem claim_C9 (A B : ControlPathState) (n : Node)
    (h : A.blocks_ = B.blocks_) :
    A.ResetToCommonAncestor B = A ∧
    (A.ResetToCommonAncestor B).LookupState n = A.LookupState n := by
  have e1 : B.blocks_.drop (B.blocks_.length - A.blocks_.length) =
      A.blocks_ := by
    rw [← h, Nat.sub_self, List.drop_zero]
  have hreset : A.ResetToCommonAncestor B =
      lockstepSteps (trimSteps (A.blocks_.length - A.blocks_.length) A).blocks_.length
        (trimSteps (A.blocks_.length - A.blocks_.length) A) A.blocks_ := by
    unfold ResetToCommonAncestor
    rw [e1]
  rw [Nat.sub_self] at hreset
  have htrim : trimSteps 0 A = A := rfl
  rw [htrim] at hreset
  have hstop : A.ResetToCommonAncestor B = A := by
    rw [hreset]
    exact lockstepSteps_stop _ _ _ rfl
  exact ⟨hstop, by rw [hstop]⟩

/-- C10: adding a fact for node (in the current block or in a new block)
leaves the LookupState result unchanged for every other node. -/
theorem claim_C10 (s : ControlPathState) (node m : Node) (st : NodeState)
    (hint : ControlPathState) (hInv : s.BlocksAndStatesInvariant)
    (hm : m ≠ node) :
    (s.AddState node st hint).LookupState m = s.LookupState m ∧
    (s.AddStateInNewBlock node st).LookupState m = s.LookupState m :=
  ⟨LookupState_AddState_other s node st hint m hInv hm,
    LookupState_AddStateInNewBlock_other s node st m hInv hm⟩

/-! Concrete instantiations of the theorems with hypotheses. -/

/-- C1 at sample data: both branches of a divergence from the empty prefix
started one new block each, with facts for nodes 3 and 4 respectively. -/
theorem claim_C1_witness :
    (wA.ResetToCommonAncestor wB).Equals ControlPathState.empty ∧
    (wA.ResetToCommonAncestor wB).LookupState 3 = default :=
  claim_C1 wA wB ControlPathState.empty [[wSt3]] [[wSt4]] 3
    (inv_AddStateInNewBlock ControlPathState.empty 3 wSt3 inv_empty rfl)
    (by decide) (by decide) (Or.inl (by decide)) (by decide) (by decide)

/-- C2 at sample data. -/
theorem claim_C2_witness :
    (ControlPathState.empty.AddState 1 wSt1 wB).BlocksAndStatesInvariant ∧
    BlocksAndStatesInvariant
      (ControlPathState.empty.AddStateInNewBlock 1 wSt1) ∧
    BlocksAndStatesInvariant
      (ControlPathState.empty.ResetToCommonAncestor wA) :=
  claim_C2 ControlPathState.empty wA wB 1 wSt1 inv_empty rfl

/-- C3 at sample data: the history starts one region with a fact for node 1,
extends it with a fact for node 2, then starts a region that shadows node 2
with a newer fact. -/
theorem claim_C3_witness :
    (run ControlPathState.empty wOps).LookupState 2 =
      (lastFactFor 2 wOps).getD default :=
  claim_C3 wOps 2 (by decide)

/-- C4 at sample data: two facts for node 1 added into wA's front block. -/
theorem claim_C4_witness :
    ((wA.AddState 1 wSt1 wB).AddState 1 (⟨1, some 99⟩ : NodeState)
      ControlPathState.empty).LookupState 1 = (⟨1, some 99⟩ : NodeState) ∧
    ((wA.AddState 1 wSt1 wB).AddState 1 (⟨1, some 99⟩ : NodeState)
      ControlPathState.empty).LookupState 1 ≠ wSt1 ∧
    FunctionalList.Front ((wA.AddState 1 wSt1 wB).AddState 1
      (⟨1, some 99⟩ : NodeState) ControlPathState.empty).blocks_ =
      (⟨1, some 99⟩ : NodeState) :: wSt1 :: FunctionalList.Front wA.blocks_ :=
  claim_C4 wA 1 wSt1 (⟨1, some 99⟩ : NodeState) wB ControlPathState.empty
    rfl rfl rfl rfl (by decide)

/-- C7 at sample data: AddState on the empty path state, with a nonempty
hint so the hint path of the prepend is exercised. -/
theorem claim_C7_witness :
    ControlPathState.empty.AddState 1 wSt1 wA =
      ControlPathState.empty.AddStateInNewBlock 1 wSt1 ∧
    (ControlPathState.empty.AddState 1 wSt1 wA).blocks_ = [[wSt1]] ∧
    (ControlPathState.empty.AddState 1 wSt1 wA).states_ =
      ControlPathState.empty.states_.Set (1, 1) wSt1 :=
  claim_C7 ControlPathState.empty 1 wSt1 wA rfl

/-- C8 at sample data: two depth-1 stacks with different blocks. -/
theorem claim_C8_witness :
    lockstepSteps 3 wA wB.blocks_ =
      lockstepSteps wB.blocks_.length wA wB.blocks_ ∧
    (lockstepSteps wB.blocks_.length wA wB.blocks_).blocks_ =
      wB.blocks_.drop (wB.blocks_.length -
        (lockstepSteps wB.blocks_.length wA wB.blocks_).blocks_.length) ∧
    (clearDrop wA).blocks_.length = wA.blocks_.length - 1 :=
  claim_C8 wA wB.blocks_ 3 (by decide) (by decide)

/-- C9 at sample data: resetting wA to its common ancestor with itself. -/
theorem claim_C9_witness :
    wA.ResetToCommonAncestor wA = wA ∧
    (wA.ResetToCommonAncestor wA).LookupState 3 = wA.LookupState 3 :=
  claim_C9 wA wA 3 rfl

/-- C10 at sample data: adding a fact for node 5 leaves node 3's lookup
unchanged. -/
theorem claim_C10_witness :
    (wA.AddState 5 (⟨5, some 5⟩ : NodeState) wB).LookupState 3 =
      wA.LookupState 3 ∧
    (wA.AddStateInNewBlock 5 (⟨5, some 5⟩ : NodeState)).LookupState 3 =
      wA.LookupState 3 :=
  claim_C10 wA 5 3 (⟨5, some 5⟩ : NodeState) wB
    (inv_AddStateInNewBlock ControlPathState.empty 3 wSt3 inv_empty rfl)
    (by decide)

end ControlPath
